import Mathlib

/-!
Shallow embedding of the GoNews full-text search engine (files `index.go`,
`query.go`, `main.go` / `analyze.go`): a positional inverted index, a
shunting-yard query compiler producing prefix-tagged RPN token strings, a
stack evaluator over document-ID sets, TF-IDF style scoring and snippet
formatting.

Modelling conventions:
* Go maps become association lists with first-match lookup (`lookupA`) and
  replace-or-append insertion (`insertA`); built from the empty index the
  keys are unique, so this agrees with Go map semantics.  Reading a missing
  key yields the Go zero value (`lookupD`).
* Go `float64` scores are modelled as real numbers.
* Document-ID sets (`map[int]struct{}`) become duplicate-free `List Int`
  values; `setIntersect`, `setUnion` and `setDiff` are the corresponding
  key-iteration loops of the source.  Go map iteration order is
  unspecified, so the model's list order is one admissible enumeration;
  every property proved below about these sets is membership-level and
  therefore order-independent.
* The stemming toggle is omitted: `Stem` in the source is the identity, so
  tokenization is unaffected by it.
-/

/-- First-match association-list lookup: Go `v, ok := m[k]`. -/
def lookupA {α β : Type} [DecidableEq α] : List (α × β) → α → Option β
  | [], _ => none
  | (k, v) :: rest, key => if key = k then some v else lookupA rest key

/-- Lookup with a default: Go `m[k]` returning the zero value on a missing key. -/
def lookupD {α β : Type} [DecidableEq α] (l : List (α × β)) (key : α) (dflt : β) : β :=
  (lookupA l key).getD dflt

/-- Association-list insertion: Go `m[k] = v` (replace the existing key, else append). -/
def insertA {α β : Type} [DecidableEq α] : List (α × β) → α → β → List (α × β)
  | [], key, v => [(key, v)]
  | (k, w) :: rest, key, v =>
      if key = k then (key, v) :: rest else (k, w) :: insertA rest key v

/-- The regex `[a-zA-Z0-9]+` character class of `analyze.go`. -/
def isWordChar (c : Char) : Bool := c.isAlpha || c.isDigit

/-- Maximal runs of word characters, left to right (`wordRE.FindAllString`). -/
def splitWordsAux : List Char → List Char → List String
  | [], cur => if cur = [] then [] else [String.mk cur.reverse]
  | c :: rest, cur =>
      if isWordChar c then splitWordsAux rest (c :: cur)
      else if cur = [] then splitWordsAux rest []
      else String.mk cur.reverse :: splitWordsAux rest []

/-- The stopword set of `analyze.go`. -/
def stopwords : List String :=
  ["the", "is", "and", "a", "an", "of", "to", "in", "for", "on", "with", "by",
   "that", "this", "it", "as", "are", "was", "at", "from", "be", "has", "have"]

/-- ASCII lowercase of a string (`strings.ToLower` on the ASCII inputs we model). -/
def lowerStr (s : String) : String := String.mk (s.data.map Char.toLower)

/-- ASCII uppercase of a string (`strings.ToUpper`). -/
def upperStr (s : String) : String := String.mk (s.data.map Char.toUpper)

/-- `Tokenize` of `analyze.go`: lowercase, split into `[a-zA-Z0-9]+` runs,
drop stopwords.  The stemming branch is the identity in the source. -/
def Tokenize (text : String) : List String :=
  (splitWordsAux (lowerStr text).data []).filter (fun w => !(stopwords.contains w))

/-- A news document (`main.go`). -/
structure Document where
  ID : Int
  Title : String
  Date : String
  Content : String
  deriving DecidableEq, Repr

/-- `Posting`: map of docID to positions. -/
abbrev Posting := List (Int × List Nat)

/-- The term map of the index. -/
abbrev TermsMap := List (String × Posting)

/-- The inverted index of `index.go`. -/
structure Index where
  Terms : TermsMap
  Docs : List (Int × Document)
  DocTokCounts : List (Int × Nat)
  N : Nat
  deriving DecidableEq

/-- `NewIndex`. -/
def NewIndex : Index := { Terms := [], Docs := [], DocTokCounts := [], N := 0 }

/-- One iteration of the posting-append loop of `AddDocument`:
`idx.Terms[tok][d.ID] = append(idx.Terms[tok][d.ID], pos)`. -/
def addToken (terms : TermsMap) (tok : String) (docID : Int) (pos : Nat) : TermsMap :=
  let posting := lookupD terms tok []
  insertA terms tok (insertA posting docID (lookupD posting docID [] ++ [pos]))

/-- The `for pos, tok := range tokens` loop of `AddDocument`, starting at
position `pos`. -/
def addTokensFrom (docID : Int) : TermsMap → Nat → List String → TermsMap
  | terms, _, [] => terms
  | terms, pos, tok :: rest => addTokensFrom docID (addToken terms tok docID pos) (pos + 1) rest

/-- `AddDocument`: tokenize title + " " + content as one stream and append
each position to the postings; update the token count and `N = len(Docs)`. -/
def AddDocument (idx : Index) (d : Document) : Index :=
  let docs := insertA idx.Docs d.ID d
  let tokens := Tokenize (d.Title ++ " " ++ d.Content)
  { Terms := addTokensFrom d.ID idx.Terms 0 tokens,
    Docs := docs,
    DocTokCounts := insertA idx.DocTokCounts d.ID tokens.length,
    N := docs.length }

/-- Folding `AddDocument` over a load of documents (the indexing loop of `main.go`). -/
def addDocs (idx : Index) (ds : List Document) : Index := ds.foldl AddDocument idx

/-- `postingIDs`: the document-ID keys of a posting, sorted ascending
(Go collects the map keys and runs `sort.Ints`). -/
def postingIDs (post : Posting) : List Int :=
  List.insertionSort (· ≤ ·) (post.map Prod.fst)

/-- The position list recorded for a (term, document) pair:
Go `idx.Terms[t][doc]` (missing term or document yields the empty list). -/
def posns (idx : Index) (t : String) (d : Int) : List Nat :=
  lookupD (lookupD idx.Terms t []) d []

/-- `contains` of `index.go`: linear membership scan. -/
def contains : List Nat → Nat → Bool
  | [], _ => false
  | v :: rest, x => if v = x then true else contains rest x

/-- The `a[i] > b[j] → j++` branch of `intersectSorted`'s two-pointer loop:
skip the leading `b` entries smaller than the current `a` entry. -/
def skipLt (a : Int) : List Int → List Int
  | [] => []
  | b :: bs => if b < a then skipLt a bs else b :: bs

/-- `intersectSorted` of `index.go`: the sorted-merge two-pointer loop.  For
each first-list element in turn: skip second-list elements smaller than it
(`j++`), on equality emit it and consume both (`i++; j++`), otherwise move
to the next first-list element (`i++`); when either side is exhausted the
remaining elements are dropped.  This is the source's loop with the `j++`
steps grouped into `skipLt`, step for step. -/
def intersectSorted : List Int → List Int → List Int
  | [], _ => []
  | a :: as, bs =>
      match skipLt a bs with
      | [] => []
      | b :: bs' => if a = b then a :: intersectSorted as bs' else intersectSorted as (b :: bs')

/-- `strings.HasPrefix(tok, "PHRASE:")`. -/
def hasPhrasePfx (s : String) : Bool := "PHRASE:".data.isPrefixOf s.data

/-- `strings.TrimPrefix` at the call sites guarded by `hasPhrasePfx`: drop
the first `n` characters. -/
def dropPfx (s : String) (n : Nat) : String := String.mk (s.data.drop n)

/-- `checkPhraseInDoc`: every phrase word must have a recorded position in
the document, and some position `p` of the first word must be followed by
position `p + i` of word `i` for every `i`.  (For an empty token list the
source would index `posLists[0]` out of range; that call never happens from
`docsWithPhrase`, and the model returns `false` there.) -/
def checkPhraseInDoc (idx : Index) (doc : Int) (tokens : List String) : Bool :=
  let posLists := tokens.map (fun t => posns idx t doc)
  if posLists.any (fun l => l.isEmpty) then false
  else
    (posLists.headD []).any (fun p =>
      (List.range' 1 (tokens.length - 1)).all (fun i => contains (posLists.getD i []) (p + i)))

/-- The candidate-intersection loop of `docsWithPhrase` for the words after
the first: absent term or empty running intersection short-circuits. -/
def candLoop (idx : Index) : List Int → List String → Option (List Int)
  | cand, [] => some cand
  | cand, t :: rest =>
      match lookupA idx.Terms t with
      | none => none
      | some post =>
          let c := intersectSorted cand (postingIDs post)
          if c = [] then none else candLoop idx c rest

/-- `docsWithPhrase`: intersect the candidate document lists of all phrase
words, then keep the candidates passing `checkPhraseInDoc` (the source adds
them to a result set; the model keeps the candidates' ascending order). -/
def docsWithPhrase (idx : Index) (tokens : List String) : List Int :=
  match tokens with
  | [] => []
  | t0 :: rest =>
      match lookupA idx.Terms t0 with
      | none => []
      | some post0 =>
          let c0 := postingIDs post0
          if c0 = [] then []
          else
            match candLoop idx c0 rest with
            | none => []
            | some cand => cand.filter (fun d => checkPhraseInDoc idx d tokens)

/-- `allDocsSet`: the set of all currently indexed document IDs (the key
list of the document table). -/
def Index.allDocsSet (idx : Index) : List Int := idx.Docs.map Prod.fst

/-- `setIntersect`: iterate the smaller set, keep keys present in the other. -/
def setIntersect (a b : List Int) : List Int :=
  if b.length < a.length then b.filter (fun k => a.contains k)
  else a.filter (fun k => b.contains k)

/-- `setUnion`: insert the keys of both sets into a fresh set. -/
def setUnion (a b : List Int) : List Int :=
  a ++ b.filter (fun k => !(a.contains k))

/-- `setDiff`: the keys of `a` not present in `b`. -/
def setDiff (a b : List Int) : List Int :=
  a.filter (fun k => !(b.contains k))

/-- The operand push of `EvaluateRPN` for a literal term: the key set of the
term's posting, empty for an unseen term. -/
def termDocs (idx : Index) (tok : String) : List Int :=
  match lookupA idx.Terms tok with
  | some posting => posting.map Prod.fst
  | none => []

/-- One iteration of the `EvaluateRPN` loop on the operand stack (head of the
list is the top of the stack).  An operator finding too few operands leaves
the stack unchanged (`continue` in the source). -/
def rpnStep (idx : Index) (stack : List (List Int)) (tok : String) : List (List Int) :=
  if tok = "AND" ∨ tok = "OR" then
    match stack with
    | r :: l :: rest => (if tok = "AND" then setIntersect l r else setUnion l r) :: rest
    | _ => stack
  else if tok = "NOT" then
    match stack with
    | a :: rest => setDiff idx.allDocsSet a :: rest
    | _ => stack
  else
    (if hasPhrasePfx tok then docsWithPhrase idx (Tokenize (dropPfx tok 7))
     else termDocs idx tok) :: stack

/-- `EvaluateRPN`: run the stack machine; the result is the top of the final
stack and the empty set when the final stack is empty. -/
def EvaluateRPN (idx : Index) (rpn : List String) : List Int :=
  match rpn.foldl (rpnStep idx) [] with
  | [] => []
  | s :: _ => s

/-- `isOperator` of `query.go`. -/
def isOperator (t : String) : Bool :=
  upperStr t = "AND" || upperStr t = "OR" || upperStr t = "NOT"

/-- `matchedTermsInDoc`: walk the RPN operands (operators skipped) and keep
those present in the document; a phrase operand is kept stripped of its
`PHRASE:` marker when `checkPhraseInDoc` accepts it.  The source collects the
strings into a `map[string]bool`; the model keeps first-insertion order. -/
def matchedTermsInDoc (idx : Index) (doc : Int) (rpn : List String) : List String :=
  rpn.foldl (fun acc tok =>
    if isOperator tok then acc
    else if hasPhrasePfx tok then
      let phrase := dropPfx tok 7
      if checkPhraseInDoc idx doc (Tokenize phrase) then
        (if acc.contains phrase then acc else acc ++ [phrase])
      else acc
    else
      match lookupA idx.Terms tok with
      | some posting =>
          if 0 < (lookupD posting doc []).length then
            (if acc.contains tok then acc else acc ++ [tok])
          else acc
      | none => acc) []

/-- The per-term contribution of `scoreDoc`: `2.0` for a `PHRASE:`-tagged
string, otherwise normalized term frequency times `log (1 + N / df)`, and `0`
for a nil posting, zero document frequency or zero token count. -/
noncomputable def termScore (idx : Index) (doc : Int) (t : String) : ℝ :=
  if hasPhrasePfx t then 2
  else
    match lookupA idx.Terms t with
    | none => 0
    | some posting =>
        let tf : ℝ := (lookupD posting doc []).length
        let df : ℝ := posting.length
        let dl : Nat := lookupD idx.DocTokCounts doc 0
        if df = 0 ∨ dl = 0 then 0
        else (tf / (dl : ℝ)) * Real.log (1 + (idx.N : ℝ) / df)

/-- `scoreDoc`: sum of the per-term contributions over the matched list. -/
noncomputable def scoreDoc (idx : Index) (doc : Int) (matched : List String) : ℝ :=
  matched.foldl (fun s t => s + termScore idx doc t) 0

/-- Leading and trailing whitespace trim (`strings.TrimSpace`). -/
def trimChars (cs : List Char) : List Char :=
  ((cs.dropWhile Char.isWhitespace).reverse.dropWhile Char.isWhitespace).reverse

/-- The character scan of `QueryToRPN` with the accumulated characters of the
current token (reversed) and the in-quote flag: a `"` toggles quoting (the
closing quote emits a `PHRASE:`-tagged token; the opening quote resets the
accumulator), inside quotes every character accumulates, outside quotes
spaces separate and parentheses are emitted as standalone tokens.  At end of
input a non-empty accumulator is flushed as a plain token, quoted or not. -/
def scanToks : List Char → List Char → Bool → List String
  | [], cur, _ => if cur = [] then [] else [String.mk cur.reverse]
  | c :: rest, cur, inQuote =>
      if c = '"' then
        if inQuote then
          (if cur = [] then scanToks rest [] false
           else ("PHRASE:" ++ String.mk cur.reverse) :: scanToks rest [] false)
        else scanToks rest [] true
      else if inQuote then scanToks rest (c :: cur) inQuote
      else if c = ' ' then
        (if cur = [] then scanToks rest [] false
         else String.mk cur.reverse :: scanToks rest [] false)
      else if c = '(' || c = ')' then
        (if cur = [] then String.mk [c] :: scanToks rest [] false
         else String.mk cur.reverse :: String.mk [c] :: scanToks rest [] false)
      else scanToks rest (c :: cur) inQuote

/-- The normalization pass of `QueryToRPN`: operator markers, parentheses and
`PHRASE:`-tagged tokens (checked on the uppercased token) are kept verbatim;
any other token is lowercased and run through `Tokenize` — no sub-token
keeps the lowercased literal, one sub-token replaces it, several are joined
with underscores. -/
def normalizeTok (t : String) : String :=
  let u := upperStr t
  if u = "AND" || u = "OR" || u = "NOT" || u = "(" || u = ")" || hasPhrasePfx u then t
  else
    let lo := lowerStr t
    match Tokenize lo with
    | [] => lo
    | [s] => s
    | sub => String.intercalate "_" sub

/-- Operator precedence (`prec` map): a missing key reads as `0`. -/
def prec (op : String) : Nat :=
  if op = "OR" then 1 else if op = "AND" then 2 else if op = "NOT" then 3 else 0

/-- The close-paren loop: pop operators to the output until an `(` (which is
discarded) or the stack empties.  Returns (output, remaining stack). -/
def closeParen : List String → List String → List String × List String
  | out, [] => (out, [])
  | out, op :: rest => if op = "(" then (out, rest) else closeParen (out ++ [op]) rest

/-- The operator-push loop: pop operators of greater or equal precedence
(stopping at `(`) to the output.  Returns (output, remaining stack). -/
def popGE (u : String) : List String → List String → List String × List String
  | out, [] => (out, [])
  | out, op :: rest =>
      if op = "(" then (out, op :: rest)
      else if prec u ≤ prec (upperStr op) then popGE u (out ++ [op]) rest
      else (out, op :: rest)

/-- The shunting-yard loop of `QueryToRPN` over normalized tokens (head of
the operator list is the top of the stack); leftover operators are flushed
top-first at the end. -/
def syLoop : List String → List String → List String → List String
  | out, opstack, [] => out ++ opstack
  | out, opstack, tk :: rest =>
      if tk = "(" then syLoop out ("(" :: opstack) rest
      else if tk = ")" then
        let p := closeParen out opstack
        syLoop p.1 p.2 rest
      else
        let u := upperStr tk
        if u = "AND" || u = "OR" || u = "NOT" then
          let p := popGE u out opstack
          syLoop p.1 (u :: p.2) rest
        else if hasPhrasePfx tk then
          syLoop (out ++ ["PHRASE:" ++ dropPfx tk 7]) opstack rest
        else syLoop (out ++ [tk]) opstack rest

/-- `QueryToRPN`: trim, scan into tokens, normalize, shunting-yard. -/
def QueryToRPN (q : String) : List String :=
  let cs := trimChars q.data
  if cs = [] then []
  else syLoop [] [] ((scanToks cs [] false).map normalizeTok)

/-- The per-term test of the snippet scan of `MakeSnippet`: a
`PHRASE:`-tagged term matches a content token equal to the phrase's first
word (when the phrase tokenizes to anything), a plain term matches a content
token equal to it. -/
def tokMatches (w : String) (t : String) : Bool :=
  if hasPhrasePfx t then
    match Tokenize (dropPfx t 7) with
    | [] => false
    | p0 :: _ => w = p0
  else w = t

/-- The `first` scan of `MakeSnippet`: index of the first content token
matching some term (`-1`, here `none`, when none does). -/
def findFirstTok (terms : List String) : List String → Nat → Option Nat
  | [], _ => none
  | w :: ws, i => if terms.any (tokMatches w) then some i else findFirstTok terms ws (i + 1)

/-- `MakeSnippet` of `query.go`: empty content yields the empty string; with
no match, the first 30 content tokens joined by spaces plus a trailing
ellipsis; with a first match at `first`, the tokens of the half-open index
range `[first - 8, first + 12)` (clamped to the token list) joined by
spaces, wrapped in ellipses. -/
def MakeSnippet (content : String) (terms : List String) : String :=
  if content = "" then ""
  else
    let toks := Tokenize content
    match findFirstTok terms toks 0 with
    | none => String.intercalate " " (toks.take (min 30 toks.length)) ++ "..."
    | some first =>
        "..." ++ String.intercalate " " ((toks.take (first + 12)).drop (first - 8)) ++ "..."

/-- A search result (`index.go`). -/
structure SearchResult where
  DocID : Int
  Score : ℝ
  MatchedTerms : List String

/-- Descending insertion by score, modelling `sort.Slice(results, Score i >
Score j)`; the source's sort is unstable, so ties may come out in any order
there, and the model fixes one such order. -/
noncomputable def insertByScore (r : SearchResult) : List SearchResult → List SearchResult
  | [] => [r]
  | x :: xs => if x.Score < r.Score then r :: x :: xs else x :: insertByScore r xs

/-- Sort results by descending score. -/
noncomputable def sortByScoreDesc : List SearchResult → List SearchResult
  | [] => []
  | x :: xs => insertByScore x (sortByScoreDesc xs)

/-- `Search`: compile the query, evaluate the RPN, score and sort.  The
source enumerates the result set (a Go map) in unspecified order; the model
enumerates the evaluator's list. -/
noncomputable def Search (idx : Index) (query : String) : List SearchResult :=
  if query.length = 0 then []
  else
    let rpn := QueryToRPN query
    let resSet := EvaluateRPN idx rpn
    let results := resSet.map (fun doc =>
      { DocID := doc, Score := scoreDoc idx doc (matchedTermsInDoc idx doc rpn),
        MatchedTerms := matchedTermsInDoc idx doc rpn : SearchResult })
    sortByScoreDesc results

/-- The state-threaded rendering of `EvaluateRPN`'s pointer-receiver method:
each loop iteration reads the current index and writes nothing (the source
body contains no assignment to `idx` or its maps), so the index component is
passed along unchanged. -/
def EvaluateRPNSt (idx : Index) (rpn : List String) : List Int × Index :=
  let fin := rpn.foldl (fun (st : List (List Int) × Index) tok => (rpnStep st.2 st.1 tok, st.2)) ([], idx)
  (match fin.1 with
   | [] => []
   | s :: _ => s, fin.2)

/-- The state-threaded rendering of `matchedTermsInDoc` (reads only). -/
def matchedTermsInDocSt (idx : Index) (doc : Int) (rpn : List String) : List String × Index :=
  (matchedTermsInDoc idx doc rpn, idx)

/-- The state-threaded rendering of `scoreDoc` (reads only). -/
noncomputable def scoreDocSt (idx : Index) (doc : Int) (matched : List String) : ℝ × Index :=
  (scoreDoc idx doc matched, idx)

/-- The state-threaded rendering of `Search`: compile (`QueryToRPN` takes no
index at all), evaluate, extract matched terms, score and sort, threading
the index through every sub-call as the pointer receiver does. -/
noncomputable def SearchSt (idx : Index) (query : String) : List SearchResult × Index :=
  if query.length = 0 then ([], idx)
  else
    let rpn := QueryToRPN query
    let er := EvaluateRPNSt idx rpn
    let step := fun (st : List SearchResult × Index) (doc : Int) =>
      let mt := matchedTermsInDocSt st.2 doc rpn
      let sc := scoreDocSt mt.2 doc mt.1
      (st.1 ++ [{ DocID := doc, Score := sc.1, MatchedTerms := mt.1 : SearchResult}], sc.2)
    let built := er.1.foldl step ([], er.2)
    (sortByScoreDesc built.1, built.2)

/-- Example fixture: the document of the spec's phrase example. -/
def exDoc : Document := { ID := 1, Title := "", Date := "", Content := "the small cat sat" }

/-- Example fixture: the index holding only `exDoc`. -/
def exIdx : Index := AddDocument NewIndex exDoc

/-- The position list stored under a term and document in a bare term map. -/
def posnsT (terms : TermsMap) (t : String) (d : Int) : List Nat :=
  lookupD (lookupD terms t []) d []

/-- `i` is the first index of `toks` whose token matches some snippet term. -/
def FirstMatch (terms toks : List String) (i : Nat) : Prop :=
  i < toks.length ∧ terms.any (tokMatches (toks.getD i "")) = true ∧
    ∀ j < i, terms.any (tokMatches (toks.getD j "")) = false

/-! ## Supporting lemmas -/

theorem lookupA_insertA {α β : Type} [DecidableEq α] (l : List (α × β)) (k k' : α) (v : β) :
    lookupA (insertA l k v) k' = if k' = k then some v else lookupA l k' := by
  induction l with
  | nil => simp [insertA, lookupA]
  | cons hd tl ih =>
      obtain ⟨a, b⟩ := hd
      by_cases hk : k = a
      · subst hk
        by_cases h' : k' = k <;> simp [insertA, lookupA, h']
      · by_cases h' : k' = a
        · subst h'
          have hne : ¬ k' = k := fun h => hk h.symm
          simp [insertA, lookupA, hk, hne]
        · simp [insertA, lookupA, hk, h', ih]

theorem contains_eq_true_iff (l : List Nat) (x : Nat) : contains l x = true ↔ x ∈ l := by
  induction l with
  | nil => simp [contains]
  | cons v rest ih =>
      by_cases h : v = x
      · subst h; simp [contains]
      · have h' : ¬ x = v := fun hx => h hx.symm
        simp [contains, h, h', ih]

theorem getD_map {α β : Type} (f : α → β) (dflt : β) (dflt' : α) :
    ∀ (l : List α) (j : Nat), j < l.length → (l.map f).getD j dflt = f (l.getD j dflt')
  | a :: l, 0, _ => rfl
  | a :: l, j + 1, h => by
      simp only [List.map_cons, List.getD_cons_succ]
      exact getD_map f dflt dflt' l j (by simpa using h)

theorem scanToks_inQuote : ∀ (cs cur : List Char), (∀ c ∈ cs, c ≠ '"') →
    scanToks cs cur true =
      (if cur.reverse ++ cs = [] then [] else [String.mk (cur.reverse ++ cs)]) := by
  intro cs
  induction cs with
  | nil => intro cur _; simp [scanToks]
  | cons c rest ih =>
      intro cur h
      have hc : ¬ c = '"' := h c (by simp)
      have hrest : ∀ c' ∈ rest, c' ≠ '"' := fun c' hm => h c' (by simp [hm])
      simp only [scanToks, if_neg hc, if_pos rfl, ih (c :: cur) hrest]
      simp

theorem evalSt_foldl (idx : Index) : ∀ (rpn : List String) (stack : List (List Int)),
    rpn.foldl (fun (st : List (List Int) × Index) tok => (rpnStep st.2 st.1 tok, st.2)) (stack, idx)
      = (rpn.foldl (rpnStep idx) stack, idx) := by
  intro rpn
  induction rpn with
  | nil => intro stack; rfl
  | cons tok rest ih => intro stack; simp only [List.foldl_cons]; exact ih _

theorem searchSt_foldl (idx : Index) (rpn : List String) : ∀ (l : List Int) (acc : List SearchResult),
    (l.foldl (fun (st : List SearchResult × Index) (doc : Int) =>
        let mt := matchedTermsInDocSt st.2 doc rpn
        let sc := scoreDocSt mt.2 doc mt.1
        (st.1 ++ [{ DocID := doc, Score := sc.1, MatchedTerms := mt.1 : SearchResult}], sc.2)) (acc, idx))
      = (acc ++ l.map (fun doc =>
          { DocID := doc, Score := scoreDoc idx doc (matchedTermsInDoc idx doc rpn),
            MatchedTerms := matchedTermsInDoc idx doc rpn : SearchResult}), idx) := by
  intro l
  induction l with
  | nil => intro acc; simp
  | cons d rest ih =>
      intro acc
      rw [List.foldl_cons]
      refine (ih _).trans ?_
      simp [matchedTermsInDocSt, scoreDocSt, List.append_assoc]

/-! ## Claim theorems -/

/-- Claim C1 (code bug): the spec promises a fixed additive bonus of 2.0 per
matched phrase operand, and `scoreDoc`'s own phrase branch (`score += 2.0`,
commented "give a boost for phrase matches") confirms the intent — but
`matchedTermsInDoc` stores the phrase stripped of its `PHRASE:` marker, so
the branch never fires for a phrase reported matched through `Search`: on
the indexed text "the small cat sat", document 1 matches the phrase query
`"small cat"`, its matched list is exactly `["small cat"]`, and its score is
0, not 2. -/
theorem C1_phrase_bonus_never_applied :
    1 ∈ EvaluateRPN exIdx (QueryToRPN "\"small cat\"") ∧
    matchedTermsInDoc exIdx 1 (QueryToRPN "\"small cat\"") = ["small cat"] ∧
    scoreDoc exIdx 1 (matchedTermsInDoc exIdx 1 (QueryToRPN "\"small cat\"")) = 0 ∧
    (0 : ℝ) ≠ 2 := by
  refine ⟨by decide, by decide, ?_, by norm_num⟩
  have hm : matchedTermsInDoc exIdx 1 (QueryToRPN "\"small cat\"") = ["small cat"] := by decide
  rw [hm]
  have h1 : hasPhrasePfx "small cat" = false := by decide
  have h2 : lookupA exIdx.Terms "small cat" = (none : Option Posting) := by decide
  simp [scoreDoc, termScore, h1, h2]

/-- Claim C3: compiling "a OR b AND c" and "a OR (b AND c)" yields the same
RPN token sequence (AND binds tighter than OR), and that sequence contains
no parenthesis tokens. -/
theorem C3_and_binds_tighter_than_or :
    QueryToRPN "a OR b AND c" = ["a", "b", "c", "AND", "OR"] ∧
    QueryToRPN "a OR (b AND c)" = ["a", "b", "c", "AND", "OR"] ∧
    "(" ∉ QueryToRPN "a OR (b AND c)" ∧ ")" ∉ QueryToRPN "a OR (b AND c)" := by
  refine ⟨rfl, rfl, by decide, by decide⟩

/-- Claim C4: the NOT case of the evaluator pops exactly one set and pushes
its complement relative to the set of all currently indexed document IDs;
consequently the RPN of the query `NOT t` for a single term `t` (any
non-operator, non-phrase token) evaluates to the full indexed document set
minus the documents containing `t`, and to the full indexed set when no
document contains `t`. -/
theorem C4_not_complement : ∀ (idx : Index) (a : List Int) (stack : List (List Int)) (t : String),
    rpnStep idx (a :: stack) "NOT" = setDiff idx.allDocsSet a :: stack ∧
    (t ≠ "AND" → t ≠ "OR" → t ≠ "NOT" → hasPhrasePfx t = false →
      EvaluateRPN idx [t, "NOT"] = setDiff idx.allDocsSet (termDocs idx t) ∧
      (termDocs idx t = [] → EvaluateRPN idx [t, "NOT"] = idx.allDocsSet)) := by
  intro idx a stack t
  constructor
  · rfl
  · intro h1 h2 h3 h4
    have he : EvaluateRPN idx [t, "NOT"] = setDiff idx.allDocsSet (termDocs idx t) := by
      simp only [EvaluateRPN, List.foldl_cons, List.foldl_nil, rpnStep, h1, h2, h3, h4]
      simp
    refine ⟨he, fun h5 => ?_⟩
    rw [he, h5]
    simp [setDiff]

/-- Claim C5: `EvaluateRPN` is total by construction over arbitrary token
sequences; a binary operator with fewer than two operands on the stack, or
NOT with an empty stack, leaves the stack unchanged (silently skipped), and
an empty RPN sequence or an empty final stack yields the empty document
set. -/
theorem C5_evaluate_total_skip : ∀ idx : Index,
    (∀ (stack : List (List Int)) (tok : String),
      (tok = "AND" ∨ tok = "OR") → stack.length < 2 → rpnStep idx stack tok = stack) ∧
    rpnStep idx [] "NOT" = [] ∧
    EvaluateRPN idx [] = [] ∧
    (∀ rpn : List String, rpn.foldl (rpnStep idx) [] = [] → EvaluateRPN idx rpn = []) := by
  intro idx
  refine ⟨?_, rfl, rfl, ?_⟩
  · intro stack tok h hlen
    simp only [rpnStep, if_pos h]
    match stack with
    | [] => rfl
    | [a] => rfl
    | a :: b :: r =>
        exfalso
        simp only [List.length_cons] at hlen
        omega
  · intro rpn h
    simp only [EvaluateRPN, h]

/-- Claim C6 (counterexample): the claim says the content after an unmatched
opening quote contributes no token to the compiler's output; compiling
`"small dog` (unterminated quote) in fact outputs the underscore-joined
ordinary token `small_dog`, a non-empty output. -/
theorem C6_counterexample :
    QueryToRPN "\"small dog" = ["small_dog"] ∧ QueryToRPN "\"small dog" ≠ [] := by
  exact ⟨rfl, by decide⟩

/-- Claim C6 (amended): a query ending inside an unterminated quoted span
does not discard the accumulated phrase content — the end-of-input flush
appends it as one ordinary (non-phrase) token regardless of the quote flag
(first conjunct, at the scanner level: with no further quote character the
remaining characters join the accumulator and are flushed as one plain
token), which then undergoes standard term normalization, as in
`QueryToRPN "\"small dog" = ["small_dog"]`; no phrase token is produced and
no error is raised. -/
theorem C6_unterminated_quote_amended :
    (∀ (cs cur : List Char), (∀ c ∈ cs, c ≠ '"') →
      scanToks cs cur true =
        (if cur.reverse ++ cs = [] then [] else [String.mk (cur.reverse ++ cs)])) ∧
    QueryToRPN "\"small dog" = ["small_dog"] ∧
    (∀ tok ∈ QueryToRPN "\"small dog", hasPhrasePfx tok = false) := by
  refine ⟨scanToks_inQuote, rfl, by decide⟩

/-- Claim C10: `Search`, `EvaluateRPN` and `matchedTermsInDoc` never mutate
the index: the state-threaded renderings of the source's pointer-receiver
methods return the index (terms map, document table, token counts and `N`)
unchanged, and their value components agree with the read-only model.
`QueryToRPN` is a free function whose type takes no index at all. -/
theorem C10_search_no_mutation : ∀ (idx : Index) (q : String) (rpn : List String) (doc : Int),
    (SearchSt idx q).2 = idx ∧
    (EvaluateRPNSt idx rpn).2 = idx ∧
    (matchedTermsInDocSt idx doc rpn).2 = idx ∧
    (EvaluateRPNSt idx rpn).1 = EvaluateRPN idx rpn ∧
    (SearchSt idx q).1 = Search idx q := by
  intro idx q rpn doc
  have hev2 : ∀ r : List String, (EvaluateRPNSt idx r).2 = idx := by
    intro r; simp only [EvaluateRPNSt, evalSt_foldl]
  have hev1 : ∀ r : List String, (EvaluateRPNSt idx r).1 = EvaluateRPN idx r := by
    intro r; simp only [EvaluateRPNSt, evalSt_foldl, EvaluateRPN]
  refine ⟨?_, hev2 rpn, rfl, hev1 rpn, ?_⟩
  · by_cases h : q.length = 0
    · simp [SearchSt, h]
    · simp only [SearchSt, if_neg h, EvaluateRPNSt, evalSt_foldl, searchSt_foldl]
  · by_cases h : q.length = 0
    · simp [SearchSt, Search, h]
    · simp only [SearchSt, Search, if_neg h, EvaluateRPNSt, evalSt_foldl, searchSt_foldl,
        EvaluateRPN, List.nil_append]

/-- Fixture for the term-frequency monotonicity claim: "cat" once in
document 1 of token count 3, one indexed document. -/
def exIdxTf1 : Index := { Terms := [("cat", [(1, [0])])], Docs := [], DocTokCounts := [(1, 3)], N := 1 }

/-- Fixture: as `exIdxTf1` but "cat" occurs twice in document 1. -/
def exIdxTf2 : Index := { Terms := [("cat", [(1, [0, 1])])], Docs := [], DocTokCounts := [(1, 3)], N := 1 }

/-- Claim C7: holding the document's token count, the document count `N` and
the term's document frequency fixed, a larger occurrence count of a
non-phrase term never decreases its `scoreDoc` contribution: the factor
`(tf / docTokCount) * log (1 + N / df)` is monotone non-decreasing in
`tf`. -/
theorem C7_tf_monotone : ∀ (idx1 idx2 : Index) (doc : Int) (t : String) (p1 p2 : Posting),
    hasPhrasePfx t = false →
    lookupA idx1.Terms t = some p1 →
    lookupA idx2.Terms t = some p2 →
    p1.length = p2.length →
    lookupD idx1.DocTokCounts doc 0 = lookupD idx2.DocTokCounts doc 0 →
    idx1.N = idx2.N →
    (lookupD p1 doc []).length ≤ (lookupD p2 doc []).length →
    termScore idx1 doc t ≤ termScore idx2 doc t := by
  intro idx1 idx2 doc t p1 p2 hph h1 h2 hdf hL hN htf
  simp only [termScore, hph, Bool.false_eq_true, if_false, h1, h2, hdf, hL, hN]
  by_cases hz : (p2.length : ℝ) = 0 ∨ lookupD idx2.DocTokCounts doc (0 : Nat) = 0
  · rw [if_pos hz, if_pos hz]
  · rw [if_neg hz, if_neg hz]
    rw [not_or] at hz
    obtain ⟨hdf0, hdl0⟩ := hz
    have hdl : (0 : ℝ) < ((lookupD idx2.DocTokCounts doc 0 : Nat) : ℝ) := by
      exact_mod_cast Nat.pos_of_ne_zero hdl0
    have hlog : 0 ≤ Real.log (1 + (idx2.N : ℝ) / (p2.length : ℝ)) := by
      apply Real.log_nonneg
      have : 0 ≤ (idx2.N : ℝ) / (p2.length : ℝ) :=
        div_nonneg (Nat.cast_nonneg _) (Nat.cast_nonneg _)
      linarith
    have htf' : ((lookupD p1 doc []).length : ℝ) ≤ ((lookupD p2 doc []).length : ℝ) := by
      exact_mod_cast htf
    exact mul_le_mul_of_nonneg_right ((div_le_div_iff_of_pos_right hdl).mpr htf') hlog

/-- Witness for C7 at a concrete input: one versus two occurrences of "cat"
in a document of three tokens, document frequency and `N` alike. -/
theorem C7_tf_monotone_witness : termScore exIdxTf1 1 "cat" ≤ termScore exIdxTf2 1 "cat" :=
  C7_tf_monotone exIdxTf1 exIdxTf2 1 "cat" [(1, [0])] [(1, [0, 1])]
    (by decide) rfl rfl rfl rfl rfl (by decide)

theorem posnsT_addToken (terms : TermsMap) (tok : String) (dID : Int) (p : Nat) (t : String) (d : Int) :
    posnsT (addToken terms tok dID p) t d =
      if t = tok ∧ d = dID then posnsT terms t d ++ [p] else posnsT terms t d := by
  simp only [posnsT, addToken, lookupD, lookupA_insertA]
  by_cases ht : t = tok
  · simp only [ht, eq_self_iff_true, if_true, Option.getD_some, true_and]
    rw [lookupA_insertA]
    by_cases hd : d = dID
    · simp [hd]
    · simp [hd]
  · simp [ht]

theorem posnsT_addTokensFrom_other (dID : Int) (d : Int) (t : String) (hne : d ≠ dID) :
    ∀ (toks : List String) (terms : TermsMap) (pos : Nat),
      posnsT (addTokensFrom dID terms pos toks) t d = posnsT terms t d := by
  intro toks
  induction toks with
  | nil => intro terms pos; rfl
  | cons tok rest ih =>
      intro terms pos
      simp only [addTokensFrom]
      rw [ih, posnsT_addToken]
      simp [hne]

theorem posnsT_addTokensFrom_self (dID : Int) :
    ∀ (toks : List String) (terms : TermsMap) (pos : Nat),
      (∀ t, List.Sorted (· < ·) (posnsT terms t dID) ∧ ∀ x ∈ posnsT terms t dID, x < pos) →
      ∀ t, List.Sorted (· < ·) (posnsT (addTokensFrom dID terms pos toks) t dID) ∧
        ∀ x ∈ posnsT (addTokensFrom dID terms pos toks) t dID, x < pos + toks.length := by
  intro toks
  induction toks with
  | nil => intro terms pos h t; simpa using h t
  | cons tok rest ih =>
      intro terms pos h t
      simp only [addTokensFrom, List.length_cons]
      have hstep : ∀ t', List.Sorted (· < ·) (posnsT (addToken terms tok dID pos) t' dID) ∧
          ∀ x ∈ posnsT (addToken terms tok dID pos) t' dID, x < pos + 1 := by
        intro t'
        rw [posnsT_addToken]
        by_cases hc : t' = tok ∧ dID = dID
        · rw [if_pos hc]
          obtain ⟨hs, hb⟩ := h t'
          constructor
          · refine List.pairwise_append.mpr ⟨hs, List.sorted_singleton _, fun a ha b hb' => ?_⟩
            simp only [List.mem_singleton] at hb'
            subst hb'
            exact hb a ha
          · intro x hx
            rcases List.mem_append.mp hx with hx | hx
            · exact Nat.lt_succ_of_lt (hb x hx)
            · simp only [List.mem_singleton] at hx
              omega
        · rw [if_neg hc]
          obtain ⟨hs, hb⟩ := h t'
          exact ⟨hs, fun x hx => Nat.lt_succ_of_lt (hb x hx)⟩
      have hres := ih (addToken terms tok dID pos) (pos + 1) hstep t
      exact ⟨hres.1, fun x hx => by have := hres.2 x hx; omega⟩

theorem posns_AddDocument_other (idx : Index) (doc : Document) (t : String) (d : Int)
    (h : d ≠ doc.ID) : posns (AddDocument idx doc) t d = posns idx t d :=
  posnsT_addTokensFrom_other doc.ID d t h _ idx.Terms 0

theorem sorted_posns_AddDocument (idx : Index) (doc : Document)
    (hfresh : ∀ t, posns idx t doc.ID = [])
    (hsorted : ∀ t d, List.Sorted (· < ·) (posns idx t d)) :
    ∀ t d, List.Sorted (· < ·) (posns (AddDocument idx doc) t d) := by
  intro t d
  by_cases hd : d = doc.ID
  · subst hd
    have hres := posnsT_addTokensFrom_self doc.ID (Tokenize (doc.Title ++ " " ++ doc.Content))
      idx.Terms 0 (fun t' => by
        have hz : posnsT idx.Terms t' doc.ID = [] := hfresh t'
        rw [hz]
        exact ⟨List.sorted_nil, by simp⟩) t
    exact hres.1
  · rw [posns_AddDocument_other idx doc t d hd]
    exact hsorted t d

theorem addDocs_sorted_aux : ∀ (ds : List Document) (idx : Index),
    (∀ t d, List.Sorted (· < ·) (posns idx t d)) →
    (∀ t d, d ∈ ds.map Document.ID → posns idx t d = []) →
    (ds.map Document.ID).Nodup →
    ∀ t d, List.Sorted (· < ·) (posns (addDocs idx ds) t d) := by
  intro ds
  induction ds with
  | nil => intro idx hs _ _ t d; exact hs t d
  | cons doc rest ih =>
      intro idx hs hf hnd t d
      simp only [List.map_cons, List.nodup_cons] at hnd
      obtain ⟨hnotmem, hnd'⟩ := hnd
      apply ih (AddDocument idx doc)
      · exact sorted_posns_AddDocument idx doc (fun t' => hf t' doc.ID (by simp)) hs
      · intro t' d' hd'
        have hne : d' ≠ doc.ID := fun h => hnotmem (h ▸ hd')
        rw [posns_AddDocument_other idx doc t' d' hne]
        exact hf t' d' (by simp [hd'])
      · exact hnd'

/-- Claim C9: after any sequence of `AddDocument` calls from the empty index
in which each document ID is added at most once, every stored position list
(for every term and document) is strictly increasing. -/
theorem C9_positions_sorted : ∀ (ds : List Document) (t : String) (d : Int),
    (ds.map Document.ID).Nodup →
    List.Sorted (· < ·) (posns (addDocs NewIndex ds) t d) := by
  intro ds t d h
  refine addDocs_sorted_aux ds NewIndex (fun t' d' => ?_) (fun t' d' _ => rfl) h t d
  have hz : posns NewIndex t' d' = [] := rfl
  rw [hz]
  exact List.sorted_nil

/-- Witness for C9 at a concrete input: two documents with distinct IDs, a
term occurring twice in the first. -/
theorem C9_positions_sorted_witness :
    List.Sorted (· < ·) (posns (addDocs NewIndex
      [{ ID := 1, Title := "", Date := "", Content := "cat sat cat" },
       { ID := 2, Title := "", Date := "", Content := "dog ran" }]) "cat" 1) :=
  C9_positions_sorted _ "cat" 1 (by decide)

theorem findFirstTok_none_iff (terms : List String) : ∀ (toks : List String) (k : Nat),
    findFirstTok terms toks k = none ↔ ∀ w ∈ toks, terms.any (tokMatches w) = false := by
  intro toks
  induction toks with
  | nil => intro k; simp [findFirstTok]
  | cons w ws ih =>
      intro k
      by_cases h : terms.any (tokMatches w) = true
      · simp only [findFirstTok, if_pos h]
        constructor
        · intro hsome; cases hsome
        · intro hall
          have hw := hall w (by simp)
          rw [hw] at h
          cases h
      · have h' : terms.any (tokMatches w) = false := by simpa using h
        simp only [findFirstTok, h', Bool.false_eq_true, if_false]
        rw [ih]
        constructor
        · intro hws w' hw'
          rcases List.mem_cons.mp hw' with rfl | hmem
          · exact h'
          · exact hws w' hmem
        · intro hall w' hw'
          exact hall w' (List.mem_cons_of_mem _ hw')

theorem findFirstTok_of_first (terms : List String) : ∀ (toks : List String) (k j : Nat),
    j < toks.length →
    terms.any (tokMatches (toks.getD j "")) = true →
    (∀ j' < j, terms.any (tokMatches (toks.getD j' "")) = false) →
    findFirstTok terms toks k = some (k + j) := by
  intro toks
  induction toks with
  | nil => intro k j h; simp at h
  | cons w ws ih =>
      intro k j hlen hmatch hbefore
      by_cases h : terms.any (tokMatches w) = true
      · have hj : j = 0 := by
          by_contra hj0
          have hb := hbefore 0 (Nat.pos_of_ne_zero hj0)
          simp only [List.getD_cons_zero] at hb
          rw [hb] at h
          cases h
        subst hj
        simp [findFirstTok, h]
      · have h' : terms.any (tokMatches w) = false := by simpa using h
        have hj : j ≠ 0 := by
          intro hj0
          subst hj0
          simp only [List.getD_cons_zero] at hmatch
          rw [hmatch] at h'
          cases h'
        obtain ⟨j', rfl⟩ : ∃ j', j = j' + 1 := ⟨j - 1, by omega⟩
        have hstep := ih (k + 1) j' (by simpa using hlen) (by simpa using hmatch)
          (fun j'' hj'' => by
            have hb := hbefore (j'' + 1) (by omega)
            simpa using hb)
        simp only [findFirstTok, h', Bool.false_eq_true, if_false, hstep]
        congr 1
        omega

/-- Claim C8 (amended): for non-empty content whose first matching token
index is `i`, the snippet is the space-joined tokens of the half-open range
`[i - 8, i + 12)` — that is, through index `i + 11`, not `i + 12` — clamped
to the token list and wrapped in ellipses; when no token matches, the
snippet is the first 30 content tokens space-joined plus a trailing
ellipsis (empty content yields the empty string, not a bare ellipsis). -/
theorem C8_snippet_window (content : String) (terms : List String) (hne : content ≠ "") :
    (∀ i, FirstMatch terms (Tokenize content) i →
        MakeSnippet content terms =
          "..." ++ String.intercalate " "
            (((Tokenize content).take (i + 12)).drop (i - 8)) ++ "...") ∧
    ((∀ w ∈ Tokenize content, terms.any (tokMatches w) = false) →
        MakeSnippet content terms =
          String.intercalate " " ((Tokenize content).take 30) ++ "...") := by
  constructor
  · intro i hFM
    obtain ⟨hlen, hmatch, hbefore⟩ := hFM
    have hf := findFirstTok_of_first terms (Tokenize content) 0 i hlen hmatch hbefore
    rw [Nat.zero_add] at hf
    simp only [MakeSnippet, if_neg hne, hf]
  · intro hall
    have hf : findFirstTok terms (Tokenize content) 0 = none :=
      (findFirstTok_none_iff terms _ 0).mpr hall
    simp only [MakeSnippet, if_neg hne, hf]
    have hmin : (Tokenize content).take (min 30 (Tokenize content).length)
        = (Tokenize content).take 30 := by
      rcases le_total 30 (Tokenize content).length with h | h
      · rw [min_eq_left h]
      · rw [min_eq_right h, List.take_length, List.take_of_length_le h]
    rw [hmin]

/-- Claim C8 (counterexample): with a match at token index 0 of a 14-token
content, the emitted snippet stops at token index 11 — it is not the
space-join through index `i + 12` the claim describes; and for empty
content with no match the snippet is the empty string, not the first-30
join with a trailing ellipsis. -/
theorem C8_counterexample :
    MakeSnippet "x0 x1 x2 x3 x4 x5 x6 x7 x8 x9 x10 x11 x12 x13" ["x0"] =
      "...x0 x1 x2 x3 x4 x5 x6 x7 x8 x9 x10 x11..." ∧
    MakeSnippet "x0 x1 x2 x3 x4 x5 x6 x7 x8 x9 x10 x11 x12 x13" ["x0"] ≠
      "..." ++ String.intercalate " "
        ((Tokenize "x0 x1 x2 x3 x4 x5 x6 x7 x8 x9 x10 x11 x12 x13").take 13) ++ "..." ∧
    MakeSnippet "" [] = "" ∧
    MakeSnippet "" [] ≠ String.intercalate " " ((Tokenize "").take 30) ++ "..." := by
  refine ⟨by decide, by decide, rfl, by decide⟩

/-- Witness for the amended C8 at a concrete input: content "dog cat" with
matched term "cat" (first match at index 1). -/
theorem C8_snippet_window_witness :
    MakeSnippet "dog cat" ["cat"] =
      "..." ++ String.intercalate " "
        (((Tokenize "dog cat").take (1 + 12)).drop (1 - 8)) ++ "..." :=
  (C8_snippet_window "dog cat" ["cat"] (by decide)).1 1 ⟨by decide, by decide, by decide⟩


theorem skipLt_suffix (a : Int) : ∀ bs : List Int, skipLt a bs <:+ bs := by
  intro bs
  induction bs with
  | nil => exact List.suffix_refl _
  | cons b bs' ih =>
      by_cases h : b < a
      · simp only [skipLt, if_pos h]
        exact ih.trans (List.suffix_cons b bs')
      · simp only [skipLt, if_neg h]
        exact List.suffix_refl _

theorem mem_skipLt (a : Int) : ∀ (bs : List Int), List.Sorted (· ≤ ·) bs →
    ∀ x, x ∈ skipLt a bs ↔ x ∈ bs ∧ a ≤ x := by
  intro bs
  induction bs with
  | nil => intro _ x; simp [skipLt]
  | cons b bs' ih =>
      intro hs x
      rw [List.sorted_cons] at hs
      obtain ⟨hb, hs'⟩ := hs
      by_cases h : b < a
      · simp only [skipLt, if_pos h]
        rw [ih hs' x]
        constructor
        · exact fun ⟨h1, h2⟩ => ⟨List.mem_cons_of_mem _ h1, h2⟩
        · rintro ⟨h1, h2⟩
          rcases List.mem_cons.mp h1 with rfl | h1
          · omega
          · exact ⟨h1, h2⟩
      · simp only [skipLt, if_neg h]
        constructor
        · intro h1
          refine ⟨h1, ?_⟩
          rcases List.mem_cons.mp h1 with rfl | h1
          · omega
          · have := hb x h1
            omega
        · exact fun ⟨h1, _⟩ => h1

theorem intersectSorted_sublist : ∀ (as bs : List Int), List.Sublist (intersectSorted as bs) as := by
  intro as
  induction as with
  | nil => intro bs; simp [intersectSorted]
  | cons a as' ih =>
      intro bs
      simp only [intersectSorted]
      cases hsk : skipLt a bs with
      | nil => exact List.nil_sublist _
      | cons b bs' =>
          show (if a = b then a :: intersectSorted as' bs'
            else intersectSorted as' (b :: bs')).Sublist (a :: as')
          by_cases h : a = b
          · rw [if_pos h]
            exact List.Sublist.cons₂ a (ih bs')
          · rw [if_neg h]
            exact (ih (b :: bs')).trans (List.sublist_cons_self a as')

theorem mem_intersectSorted : ∀ (as bs : List Int), List.Sorted (· ≤ ·) as →
    List.Sorted (· ≤ ·) bs → ∀ x, x ∈ intersectSorted as bs ↔ x ∈ as ∧ x ∈ bs := by
  intro as
  induction as with
  | nil => intro bs _ _ x; simp [intersectSorted]
  | cons a as' ih =>
      intro bs hsa hsb x
      rw [List.sorted_cons] at hsa
      obtain ⟨ha, hsa'⟩ := hsa
      simp only [intersectSorted]
      cases hsk : skipLt a bs with
      | nil =>
          simp only [List.not_mem_nil, false_iff]
          rintro ⟨h1, h2⟩
          have hax : a ≤ x := by
            rcases List.mem_cons.mp h1 with rfl | h1
            · omega
            · exact ha x h1
          have : x ∈ skipLt a bs := (mem_skipLt a bs hsb x).mpr ⟨h2, hax⟩
          rw [hsk] at this
          cases this
      | cons b bs' =>
          have hsub : List.Sublist (b :: bs') bs := by
            have := skipLt_suffix a bs
            rw [hsk] at this
            exact this.sublist
          have hsbb : List.Sorted (· ≤ ·) (b :: bs') := List.Pairwise.sublist hsub hsb
          have hab : a ≤ b := by
            have hbmem : b ∈ skipLt a bs := by rw [hsk]; exact List.mem_cons_self _ _
            exact ((mem_skipLt a bs hsb b).mp hbmem).2
          rw [List.sorted_cons] at hsbb
          obtain ⟨hbles, hsbs'⟩ := hsbb
          show (x ∈ if a = b then a :: intersectSorted as' bs'
            else intersectSorted as' (b :: bs')) ↔ x ∈ a :: as' ∧ x ∈ bs
          by_cases h : a = b
          · rw [if_pos h]
            subst h
            rw [List.mem_cons, ih bs' hsa' hsbs' x]
            constructor
            · rintro (rfl | ⟨h1, h2⟩)
              · refine ⟨List.mem_cons_self _ _, ?_⟩
                have hmem : x ∈ skipLt x bs := by rw [hsk]; exact List.mem_cons_self _ _
                exact ((mem_skipLt x bs hsb x).mp hmem).1
              · refine ⟨List.mem_cons_of_mem _ h1, ?_⟩
                have hmem : x ∈ skipLt a bs := by rw [hsk]; exact List.mem_cons_of_mem _ h2
                exact ((mem_skipLt a bs hsb x).mp hmem).1
            · rintro ⟨h1, h2⟩
              rcases List.mem_cons.mp h1 with rfl | h1
              · exact Or.inl rfl
              · have hax : a ≤ x := ha x h1
                have hmem : x ∈ skipLt a bs := (mem_skipLt a bs hsb x).mpr ⟨h2, hax⟩
                rw [hsk] at hmem
                rcases List.mem_cons.mp hmem with rfl | hmem
                · exact Or.inl rfl
                · exact Or.inr ⟨h1, hmem⟩
          · rw [if_neg h]
            have halb : a < b := by omega
            rw [ih (b :: bs') hsa' (List.Pairwise.sublist hsub hsb) x]
            constructor
            · rintro ⟨h1, h2⟩
              refine ⟨List.mem_cons_of_mem _ h1, hsub.mem h2⟩
            · rintro ⟨h1, h2⟩
              rcases List.mem_cons.mp h1 with rfl | h1
              · exfalso
                have hmem : x ∈ skipLt x bs := (mem_skipLt x bs hsb x).mpr ⟨h2, le_refl x⟩
                rw [hsk] at hmem
                rcases List.mem_cons.mp hmem with heq | hmem
                · exact h heq
                · have := hbles x hmem
                  omega
              · have hax : a ≤ x := ha x h1
                have hmem : x ∈ skipLt a bs := (mem_skipLt a bs hsb x).mpr ⟨h2, hax⟩
                rw [hsk] at hmem
                exact ⟨h1, hmem⟩

theorem lookupA_mem_keys {α β : Type} [DecidableEq α] : ∀ (l : List (α × β)) (k : α) (v : β),
    lookupA l k = some v → k ∈ l.map Prod.fst := by
  intro l
  induction l with
  | nil => intro k v h; cases h
  | cons hd tl ih =>
      intro k v h
      obtain ⟨a, b⟩ := hd
      by_cases hk : k = a
      · simp [hk]
      · simp only [lookupA, if_neg hk] at h
        simp only [List.map_cons, List.mem_cons]
        exact Or.inr (ih k v h)

theorem posns_ne_nil (idx : Index) (t : String) (d : Int) (h : posns idx t d ≠ []) :
    ∃ post, lookupA idx.Terms t = some post ∧ d ∈ post.map Prod.fst ∧ lookupD post d [] ≠ [] := by
  unfold posns lookupD at h
  cases ht : lookupA idx.Terms t with
  | none => rw [ht] at h; simp [lookupA] at h
  | some post =>
      rw [ht] at h
      simp only [Option.getD_some] at h
      refine ⟨post, rfl, ?_, ?_⟩
      · cases hd : lookupA post d with
        | none => rw [hd] at h; simp at h
        | some l => exact lookupA_mem_keys post d l hd
      · exact h

theorem mem_postingIDs (post : Posting) (d : Int) : d ∈ postingIDs post ↔ d ∈ post.map Prod.fst :=
  (List.perm_insertionSort _ _).mem_iff

theorem postingIDs_sorted (post : Posting) : List.Sorted (· ≤ ·) (postingIDs post) :=
  List.sorted_insertionSort _ _

theorem candLoop_some_mem (idx : Index) (d : Int) : ∀ (rest : List String) (cand : List Int),
    List.Sorted (· ≤ ·) cand → d ∈ cand →
    (∀ t ∈ rest, posns idx t d ≠ []) →
    ∃ c, candLoop idx cand rest = some c ∧ d ∈ c := by
  intro rest
  induction rest with
  | nil => intro cand _ hd _; exact ⟨cand, rfl, hd⟩
  | cons t ts ih =>
      intro cand hs hd hall
      have hne := hall t (by simp)
      obtain ⟨post, hpost, hdkeys, _⟩ := posns_ne_nil idx t d hne
      simp only [candLoop, hpost]
      have hdpost : d ∈ postingIDs post := (mem_postingIDs post d).mpr hdkeys
      have hmem : d ∈ intersectSorted cand (postingIDs post) :=
        (mem_intersectSorted cand (postingIDs post) hs (postingIDs_sorted post) d).mpr ⟨hd, hdpost⟩
      have hcne : intersectSorted cand (postingIDs post) ≠ [] := List.ne_nil_of_mem hmem
      rw [if_neg hcne]
      exact ih _ (List.Pairwise.sublist (intersectSorted_sublist cand (postingIDs post)) hs)
        hmem (fun t' ht' => hall t' (by simp [ht']))

theorem any_isEmpty_eq_false_iff (ls : List (List Nat)) :
    (ls.any (fun l => l.isEmpty)) = false ↔ ∀ l ∈ ls, l ≠ [] := by
  simp [List.any_eq_false, List.isEmpty_iff]

theorem checkPhrase_iff (idx : Index) (d : Int) (t0 : String) (rest : List String) :
    checkPhraseInDoc idx d (t0 :: rest) = true ↔
      ((∀ t ∈ t0 :: rest, posns idx t d ≠ []) ∧
       ∃ p ∈ posns idx t0 d, ∀ j < rest.length, p + (j + 1) ∈ posns idx (rest.getD j "") d) := by
  simp only [checkPhraseInDoc, List.map_cons, List.length_cons, Nat.add_sub_cancel, List.headD_cons]
  by_cases hE : ((posns idx t0 d :: rest.map (fun t => posns idx t d)).any (fun l => l.isEmpty)) = true
  · rw [if_pos hE]
    constructor
    · intro h; cases h
    · rintro ⟨h1, -⟩
      exfalso
      rw [List.any_eq_true] at hE
      obtain ⟨lx, hlx, hempty⟩ := hE
      rw [List.isEmpty_iff] at hempty
      rcases List.mem_cons.mp hlx with rfl | hlx
      · exact h1 t0 (by simp) hempty
      · obtain ⟨t, ht, rfl⟩ := List.mem_map.mp hlx
        exact h1 t (by simp [ht]) hempty
  · rw [if_neg hE]
    have hE' : ∀ l ∈ posns idx t0 d :: rest.map (fun t => posns idx t d), l ≠ [] :=
      (any_isEmpty_eq_false_iff _).mp (by simpa using hE)
    have hall : ∀ t ∈ t0 :: rest, posns idx t d ≠ [] := by
      intro t ht
      rcases List.mem_cons.mp ht with rfl | ht
      · exact hE' _ (by simp)
      · exact hE' _ (by
          simp only [List.mem_cons, List.mem_map]
          exact Or.inr ⟨t, ht, rfl⟩)
    rw [List.any_eq_true]
    constructor
    · rintro ⟨p, hp, hg⟩
      refine ⟨hall, p, hp, ?_⟩
      intro j hj
      rw [List.all_eq_true] at hg
      have hmem : (j + 1) ∈ List.range' 1 rest.length := by
        rw [List.mem_range'_1]
        omega
      have hc := hg (j + 1) hmem
      rw [List.getD_cons_succ, getD_map (fun t => posns idx t d) [] "" rest j hj] at hc
      exact (contains_eq_true_iff _ _).mp hc
    · rintro ⟨-, p, hp, hforall⟩
      refine ⟨p, hp, ?_⟩
      rw [List.all_eq_true]
      intro i hi
      rw [List.mem_range'_1] at hi
      obtain ⟨j, rfl⟩ : ∃ j, i = j + 1 := ⟨i - 1, by omega⟩
      rw [List.getD_cons_succ, getD_map (fun t => posns idx t d) [] "" rest j (by omega)]
      exact (contains_eq_true_iff _ _).mpr (hforall j (by omega))

theorem mem_docsWithPhrase_iff (idx : Index) (t0 : String) (rest : List String) (d : Int) :
    d ∈ docsWithPhrase idx (t0 :: rest) ↔
      ((∀ t ∈ t0 :: rest, posns idx t d ≠ []) ∧
       ∃ p ∈ posns idx t0 d, ∀ j < rest.length, p + (j + 1) ∈ posns idx (rest.getD j "") d) := by
  rw [← checkPhrase_iff idx d t0 rest]
  constructor
  · intro hd
    simp only [docsWithPhrase] at hd
    cases hpost0 : lookupA idx.Terms t0 with
    | none => simp only [hpost0] at hd; cases hd
    | some post0 =>
        simp only [hpost0] at hd
        by_cases hc0 : postingIDs post0 = []
        · rw [if_pos hc0] at hd; cases hd
        · rw [if_neg hc0] at hd
          cases hcl : candLoop idx (postingIDs post0) rest with
          | none => simp only [hcl] at hd; cases hd
          | some cand =>
              simp only [hcl] at hd
              exact (List.mem_filter.mp hd).2
  · intro hcheck
    have hall : ∀ t ∈ t0 :: rest, posns idx t d ≠ [] :=
      ((checkPhrase_iff idx d t0 rest).mp hcheck).1
    have hne0 := hall t0 (by simp)
    obtain ⟨post0, hpost0, hdkeys, -⟩ := posns_ne_nil idx t0 d hne0
    have hdc0 : d ∈ postingIDs post0 := (mem_postingIDs post0 d).mpr hdkeys
    have hc0ne : postingIDs post0 ≠ [] := List.ne_nil_of_mem hdc0
    obtain ⟨c, hcl, hdc⟩ := candLoop_some_mem idx d rest (postingIDs post0)
      (postingIDs_sorted post0) hdc0 (fun t' ht' => hall t' (by simp [ht']))
    simp only [docsWithPhrase, hpost0, if_neg hc0ne, hcl]
    exact List.mem_filter.mpr ⟨hdc, hcheck⟩

theorem docsWithPhrase_absent (idx : Index) : ∀ (tokens : List String) (t : String),
    t ∈ tokens → lookupA idx.Terms t = none → docsWithPhrase idx tokens = [] := by
  intro tokens t ht hnone
  cases tokens with
  | nil => rfl
  | cons t0 rest =>
      rw [List.eq_nil_iff_forall_not_mem]
      intro d hd
      have hiff := (mem_docsWithPhrase_iff idx t0 rest d).mp hd
      have hposns : posns idx t d = [] := by
        simp [posns, lookupD, hnone, lookupA]
      exact (hiff.1 t ht) hposns

/-- Claim C2: for a phrase with ordered normalized words `t0 :: rest` and
any document `d`, the phrase evaluator includes `d` exactly when every word
has a non-empty recorded position list in `d` and some recorded position `p`
of the first word is followed by recorded position `p + i` of word `i` for
every `i`; a word absent from the index entirely makes the result the empty
set; and over the indexed text "the small cat sat" the phrase query
`"small cat"` matches document 1 while `"cat small"` does not. -/
theorem C2_phrase_adjacency :
    (∀ (idx : Index) (t0 : String) (rest : List String) (d : Int),
      d ∈ docsWithPhrase idx (t0 :: rest) ↔
        ((∀ t ∈ t0 :: rest, posns idx t d ≠ []) ∧
         ∃ p ∈ posns idx t0 d, ∀ j < rest.length, p + (j + 1) ∈ posns idx (rest.getD j "") d)) ∧
    (∀ (idx : Index) (tokens : List String) (t : String),
      t ∈ tokens → lookupA idx.Terms t = none → docsWithPhrase idx tokens = []) ∧
    1 ∈ EvaluateRPN exIdx (QueryToRPN "\"small cat\"") ∧
    1 ∉ EvaluateRPN exIdx (QueryToRPN "\"cat small\"") :=
  ⟨mem_docsWithPhrase_iff, docsWithPhrase_absent, by decide, by decide⟩
